import Mathlib

/-!
Verification development for the ABM-2 agent-based market simulator.

The Python sources are embedded shallowly:

* prices are exact rationals (the claims under study do not concern binary
  floating point rounding), quantities are natural numbers;
* the ambient `random` module becomes an explicit oracle: a family of draw
  streams indexed by the seed passed to `random.seed`, threaded through the
  code as explicit state;
* Python exceptions become `Except String`;
* the module `AgentBasedModel/utils/orders.py` (classes `Order`, `OrderList`
  with `insert`, `fulfill`, `remove`) is not part of the sources available
  under `src/`; its operations are modelled from the specification text and
  are marked `Modelled from the spec:` in their doc comments.  Everything
  else is translated from the source files.
-/

namespace ABM

/-- Side of an order: the source uses the strings 'bid' and 'ask'. -/
inductive Side where
  | bid
  | ask
deriving DecidableEq, Repr

/-- Order record from the data model: side, limit price, remaining quantity.
The owning-trader reference of the Python `Order` is dropped: per-owner trade
accounting lives in the missing `utils/orders.py` module and no claim under
study depends on it. -/
structure Order where
  price : ℚ
  qty   : ℕ
  side  : Side
deriving DecidableEq, Repr

/-- Entry of the market's last-tick trade tape: `exchange.py` line 322 appends
a dict with keys price, qty, order_type. -/
structure Trade where
  price : ℚ
  qty   : ℕ
  side  : Side
deriving DecidableEq, Repr

/-- Ghost record of a single match performed by `fulfill`: the traded price
(the resting order's price) and the traded quantity.  The Python code keeps no
such list; it is instrumentation used to state the matching semantics. -/
structure Exec where
  price : ℚ
  qty   : ℕ
deriving DecidableEq, Repr

/-- Best-bid/best-ask pair returned by `ExchangeAgent.spread`. -/
structure Spread where
  bid : ℚ
  ask : ℚ
deriving DecidableEq, Repr

/-- Python banker's rounding of a rational to an integer (`round(x)` rounds
halves to the nearest even integer). -/
def pyRound (x : ℚ) : ℤ :=
  let f : ℤ := ⌊x⌋
  let r : ℚ := x - f
  if r < 1/2 then f
  else if 1/2 < r then f + 1
  else if Even f then f else f + 1

/-- Python `round(x, 1)`: round to one decimal digit, halves to even. -/
def round1 (x : ℚ) : ℚ := (pyRound (x * 10) : ℚ) / 10

/-- Quantity rounding used when traders build orders: `round(quantity)`
truncated at zero because `Order.qty` is a natural number; all call sites
pass non-negative quantities. -/
def pyRoundNat (x : ℚ) : ℕ := (pyRound x).toNat

/-- Crossing test between an incoming order's limit price and a resting
order's price on the opposite side: an incoming bid matches resting asks
priced at or below its limit, an incoming ask matches resting bids priced at
or above its limit. -/
def crosses (side : Side) (limit rest : ℚ) : Bool :=
  match side with
  | Side.bid => decide (rest ≤ limit)
  | Side.ask => decide (limit ≤ rest)

/-- Modelled from the spec: `OrderList.insert` of the missing module
`AgentBasedModel/utils/orders.py` places an order into sorted position on the
bid side (descending price, FIFO among equal prices, so a new order goes
after existing orders of the same price). -/
def insertBid (o : Order) : List Order → List Order
  | [] => [o]
  | x :: xs => if o.price ≤ x.price then x :: insertBid o xs else o :: x :: xs

/-- Modelled from the spec: `OrderList.insert` on the ask side (ascending
price, FIFO among equal prices). -/
def insertAsk (o : Order) : List Order → List Order
  | [] => [o]
  | x :: xs => if x.price ≤ o.price then x :: insertAsk o xs else o :: x :: xs

/-- Modelled from the spec: `OrderList.fulfill` of the missing module
`AgentBasedModel/utils/orders.py`.  It walks the opposite book from the best
price outward; each match trades `min` of the remaining quantities at the
resting order's price, decrements the resting order and removes it at zero;
a limit order stops when the best resting price no longer crosses its limit,
a market order (`isMarket = true`) crosses unconditionally; fulfilling a
zero-quantity order or fulfilling against an empty book is a no-op.  Returns
the remainder order, the remaining book and the ghost list of matches.  The
transaction-cost fraction and the per-owner cash transfers of the missing
module affect only owner accounting and are not modelled. -/
def fulfill (isMarket : Bool) (o : Order) : List Order → Order × List Order × List Exec
  | [] => (o, [], [])
  | x :: xs =>
    if o.qty = 0 then (o, x :: xs, [])
    else if isMarket || crosses o.side o.price x.price then
      if x.qty ≤ o.qty then
        let m := x.qty
        let res := fulfill isMarket { o with qty := o.qty - m } xs
        (res.1, res.2.1, ⟨x.price, m⟩ :: res.2.2)
      else
        let m := o.qty
        ({ o with qty := 0 }, { x with qty := x.qty - m } :: xs, [⟨x.price, m⟩])
    else (o, x :: xs, [])

/-- Modelled from the spec: `OrderList.remove` deletes an order by identity
and signals an error if it is not present. -/
def removeOrder (o : Order) : List Order → Except String (List Order)
  | [] => .error "order not found"
  | x :: xs =>
    if x = o then .ok xs
    else (removeOrder o xs).map (fun r => x :: r)

/-- Dividend-paying stock from `exchange.py` (class `Stock`): current
dividend plus the queue of pre-computed future dividends. -/
structure Stock where
  dividend : ℚ
  dividend_book : List ℚ
deriving DecidableEq, Repr

/-- Next sampled dividend, from `Stock._next_dividend`: the factor `e` models
the draw `exp(random.normalvariate(0, std))`; the source floors the factor at
zero with `max(..., 0)` and multiplies it into the base dividend. -/
def nextDividend (e base : ℚ) : ℚ := base * max e 0

/-- One step of `Stock._fill_book` with `n = 1`: if the book is empty the
current dividend is appended and the sampling loop runs zero times; otherwise
one fresh dividend, sampled from the last element of the book, is appended. -/
def Stock.fillOne (e : ℚ) (s : Stock) : Stock :=
  match s.dividend_book with
  | [] => { s with dividend_book := [s.dividend] }
  | x :: xs => { s with dividend_book := (x :: xs) ++ [nextDividend e ((x :: xs).getLastD 0)] }

/-- Transcription of `Stock.update` (exchange.py lines 61-66): first
`_fill_book(1)` appends one sample, then `pop(0)` moves the oldest buffered
dividend into the current dividend. -/
def Stock.update (e : ℚ) (s : Stock) : Stock :=
  let s1 := Stock.fillOne e s
  match s1.dividend_book with
  | [] => s1
  | d :: rest => { dividend := d, dividend_book := rest }

/-- State of one `ExchangeAgent`: the two book sides, the last-tick trade
tape, the risk-free rate and the transaction-cost fraction.  The `asset`
reference is kept outside (the simulator state wires one shared `Stock`). -/
structure ExchangeState where
  bid : List Order
  ask : List Order
  lastTrades : List Trade
  riskFreeRate : ℚ
  transactionCost : ℚ
deriving DecidableEq, Repr

namespace ExchangeAgent

/-- Transcription of `ExchangeAgent.spread` (exchange.py lines 133-141):
best bid and ask prices, raising when either side is empty. -/
def spread (s : ExchangeState) : Except String Spread :=
  match s.bid, s.ask with
  | b :: _, a :: _ => .ok ⟨b.price, a.price⟩
  | _, _ => .error "There no either bid | ask orders"

/-- Transcription of `ExchangeAgent.price` (exchange.py lines 153-160):
midpoint of the best bid and ask, rounded to one decimal. -/
def price (s : ExchangeState) : Except String ℚ :=
  (spread s).map (fun spr => round1 ((spr.bid + spr.ask) / 2))

/-- Transcription of `ExchangeAgent.limit_order` (exchange.py lines 296-315).
The first statement queries `spread()`, whose exception propagates when a
side is empty; then the guard `not bid or not ask` fires exactly when a best
price equals zero (Python float truthiness); a zero-quantity order is
dropped; a crossing order is routed through `fulfill` and a remainder with
positive quantity is inserted into its own side. -/
def limit_order (o : Order) (s : ExchangeState) : Except String ExchangeState := do
  let spr ← spread s
  let bid := spr.bid
  let ask := spr.ask
  if bid = 0 ∨ ask = 0 then
    return s
  if o.qty = 0 then
    return s
  match o.side with
  | Side.bid =>
    let r := if ask ≤ o.price then fulfill false o s.ask else (o, s.ask, [])
    if 0 < r.1.qty then
      return { s with ask := r.2.1, bid := insertBid r.1 s.bid }
    else
      return { s with ask := r.2.1 }
  | Side.ask =>
    let r := if o.price ≤ bid then fulfill false o s.bid else (o, s.bid, [])
    if 0 < r.1.qty then
      return { s with bid := r.2.1, ask := insertAsk r.1 s.ask }
    else
      return { s with bid := r.2.1 }

/-- Transcription of `ExchangeAgent.market_order` (exchange.py lines
317-328): a zero-quantity order is returned unchanged; otherwise the
incoming order is appended to the last-tick trade tape with its own price,
its full pre-match quantity and its side, and only then routed through
`fulfill` against the opposite side; the unfilled remainder is returned. -/
def market_order (o : Order) (s : ExchangeState) : Order × ExchangeState :=
  if o.qty = 0 then (o, s)
  else
    let s1 := { s with lastTrades := s.lastTrades ++ [Trade.mk o.price o.qty o.side] }
    match o.side with
    | Side.bid =>
      let r := fulfill true o s1.ask
      (r.1, { s1 with ask := r.2.1 })
    | Side.ask =>
      let r := fulfill true o s1.bid
      (r.1, { s1 with bid := r.2.1 })

/-- Transcription of `ExchangeAgent.cancel_order` (exchange.py lines
330-334), with removal by the spec-modelled `OrderList.remove`. -/
def cancel_order (o : Order) (s : ExchangeState) : Except String ExchangeState :=
  match o.side with
  | Side.bid => (removeOrder o s.bid).map (fun b => { s with bid := b })
  | Side.ask => (removeOrder o s.ask).map (fun a => { s with ask := a })

end ExchangeAgent

/-- Total resting quantity of a book side. -/
def totalQty (l : List Order) : ℕ := (l.map Order.qty).sum

/-- Bid side sortedness: descending prices (price priority, FIFO ties). -/
def sortedBid (l : List Order) : Prop := l.Pairwise (fun a b => b.price ≤ a.price)

/-- Ask side sortedness: ascending prices. -/
def sortedAsk (l : List Order) : Prop := l.Pairwise (fun a b => a.price ≤ b.price)

/-- Uncrossed book: best bid strictly below best ask whenever both sides are
non-empty. -/
def uncrossed (bid ask : List Order) : Prop :=
  ∀ b ∈ bid.head?, ∀ a ∈ ask.head?, b.price < a.price

instance (l : List Order) : Decidable (sortedBid l) := by
  unfold sortedBid; infer_instance

instance (l : List Order) : Decidable (sortedAsk l) := by
  unfold sortedAsk; infer_instance

instance (bid ask : List Order) : Decidable (uncrossed bid ask) := by
  unfold uncrossed; infer_instance

/-! Lemmas about the spec-modelled book operations. -/

theorem bestAsk_le_mem {l : List Order} (h : sortedAsk l) {a : Order}
    (ha : a ∈ l.head?) {x : Order} (hx : x ∈ l) : a.price ≤ x.price := by
  cases l with
  | nil => simp at ha
  | cons y ys =>
    simp only [List.head?, Option.mem_def, Option.some.injEq] at ha
    subst ha
    rcases List.mem_cons.mp hx with h1 | h1
    · exact h1 ▸ le_refl _
    · exact (List.pairwise_cons.mp h).1 x h1

theorem mem_le_bestBid {l : List Order} (h : sortedBid l) {b : Order}
    (hb : b ∈ l.head?) {x : Order} (hx : x ∈ l) : x.price ≤ b.price := by
  cases l with
  | nil => simp at hb
  | cons y ys =>
    simp only [List.head?, Option.mem_def, Option.some.injEq] at hb
    subst hb
    rcases List.mem_cons.mp hx with h1 | h1
    · exact h1 ▸ le_refl _
    · exact (List.pairwise_cons.mp h).1 x h1

/-- Every order left in the book by `fulfill` has the price of some order of
the original book (fulfillment only drops resting orders from the front and
decrements the quantity of the first survivor). -/
theorem fulfill_price_mem (m : Bool) (o : Order) (l : List Order) :
    ∀ y ∈ (fulfill m o l).2.1, ∃ x ∈ l, y.price = x.price := by
  induction l generalizing o with
  | nil => intro y hy; simp [fulfill] at hy
  | cons x xs ih =>
    intro y hy
    simp only [fulfill] at hy
    split at hy
    · exact ⟨y, hy, rfl⟩
    · split at hy
      · split at hy
        · obtain ⟨z, hz, he⟩ := ih _ y hy
          exact ⟨z, List.mem_cons_of_mem _ hz, he⟩
        · rcases List.mem_cons.mp hy with h1 | h1
          · exact ⟨x, List.mem_cons_self _ _, by rw [h1]⟩
          · exact ⟨y, List.mem_cons_of_mem _ h1, rfl⟩
      · exact ⟨y, hy, rfl⟩

/-- The remainder returned by `fulfill` keeps the incoming order's price. -/
theorem fulfill_rem_price (m : Bool) (o : Order) (l : List Order) :
    (fulfill m o l).1.price = o.price := by
  induction l generalizing o with
  | nil => simp [fulfill]
  | cons x xs ih =>
    simp only [fulfill]
    split
    · rfl
    · split
      · split
        · exact ih _
        · rfl
      · rfl

/-- The remainder returned by `fulfill` keeps the incoming order's side. -/
theorem fulfill_rem_side (m : Bool) (o : Order) (l : List Order) :
    (fulfill m o l).1.side = o.side := by
  induction l generalizing o with
  | nil => simp [fulfill]
  | cons x xs ih =>
    simp only [fulfill]
    split
    · rfl
    · split
      · split
        · exact ih _
        · rfl
      · rfl

/-- Stop condition of limit-mode fulfillment: when the remainder still has
positive quantity and the book is not exhausted, the new best resting price
no longer crosses the incoming limit. -/
theorem fulfill_stop (o : Order) (l : List Order) :
    (fulfill false o l).1.qty ≠ 0 →
    ∀ y ∈ (fulfill false o l).2.1.head?, crosses o.side o.price y.price = false := by
  induction l generalizing o with
  | nil => intro _ y hy; simp [fulfill] at hy
  | cons x xs ih =>
    intro hq y hy
    simp only [fulfill] at hq hy
    by_cases h0 : o.qty = 0
    · rw [if_pos h0] at hq
      exact absurd h0 hq
    · rw [if_neg h0] at hq hy
      by_cases hc : (false || crosses o.side o.price x.price) = true
      · rw [if_pos hc] at hq hy
        by_cases hle : x.qty ≤ o.qty
        · rw [if_pos hle] at hq hy
          exact ih _ hq y hy
        · rw [if_neg hle] at hq
          exact absurd rfl hq
      · rw [if_neg hc] at hy
        have hx : x = y := by
          simpa using hy
        subst hx
        simpa using hc

/-- Bid-side insertion keeps every strict upper bound satisfied by the
inserted order and by the old best bid. -/
theorem insertBid_head_lt (o : Order) (l : List Order) (c : ℚ)
    (ho : o.price < c) (hl : ∀ x ∈ l.head?, x.price < c) :
    ∀ y ∈ (insertBid o l).head?, y.price < c := by
  cases l with
  | nil =>
    intro y hy
    simp only [insertBid, List.head?, Option.mem_def, Option.some.injEq] at hy
    exact hy ▸ ho
  | cons x xs =>
    intro y hy
    simp only [insertBid] at hy
    split at hy
    · simp only [List.head?, Option.mem_def, Option.some.injEq] at hy
      exact hy ▸ hl x (by simp)
    · simp only [List.head?, Option.mem_def, Option.some.injEq] at hy
      exact hy ▸ ho

/-- Ask-side insertion keeps every strict lower bound satisfied by the
inserted order and by the old best ask. -/
theorem insertAsk_head_gt (o : Order) (l : List Order) (c : ℚ)
    (ho : c < o.price) (hl : ∀ x ∈ l.head?, c < x.price) :
    ∀ y ∈ (insertAsk o l).head?, c < y.price := by
  cases l with
  | nil =>
    intro y hy
    simp only [insertAsk, List.head?, Option.mem_def, Option.some.injEq] at hy
    exact hy ▸ ho
  | cons x xs =>
    intro y hy
    simp only [insertAsk] at hy
    split at hy
    · simp only [List.head?, Option.mem_def, Option.some.injEq] at hy
      exact hy ▸ hl x (by simp)
    · simp only [List.head?, Option.mem_def, Option.some.injEq] at hy
      exact hy ▸ ho

/-- Fulfilling any order against the ask side of an uncrossed pair leaves
the pair uncrossed (only front asks are consumed). -/
theorem uncrossed_fulfillR (bid ask : List Order) (hsa : sortedAsk ask)
    (hu : uncrossed bid ask) (m : Bool) (o : Order) :
    uncrossed bid (fulfill m o ask).2.1 := by
  intro b hb a ha
  obtain ⟨x, hx, he⟩ := fulfill_price_mem m o ask a (List.mem_of_mem_head? ha)
  cases ask with
  | nil => simp at hx
  | cons a0 as =>
    have h1 : a0.price ≤ x.price := bestAsk_le_mem hsa (by simp) hx
    have h2 : b.price < a0.price := hu b hb a0 (by simp)
    rw [he]
    exact lt_of_lt_of_le h2 h1

/-- Fulfilling any order against the bid side of an uncrossed pair leaves
the pair uncrossed. -/
theorem uncrossed_fulfillL (bid ask : List Order) (hsb : sortedBid bid)
    (hu : uncrossed bid ask) (m : Bool) (o : Order) :
    uncrossed (fulfill m o bid).2.1 ask := by
  intro b hb a ha
  obtain ⟨x, hx, he⟩ := fulfill_price_mem m o bid b (List.mem_of_mem_head? hb)
  cases bid with
  | nil => simp at hx
  | cons b0 bs =>
    have h1 : x.price ≤ b0.price := mem_le_bestBid hsb (by simp) hx
    have h2 : b0.price < a.price := hu b0 (by simp) a ha
    rw [he]
    exact lt_of_le_of_lt h1 h2

/-- Inserting the positive remainder of a limit bid after fulfillment
against the ask book keeps the pair uncrossed. -/
theorem uncrossed_insertRemBid (bid ask : List Order) (o : Order)
    (hsa : sortedAsk ask) (hu : uncrossed bid ask)
    (hside : o.side = Side.bid)
    (hq : (fulfill false o ask).1.qty ≠ 0) :
    uncrossed (insertBid (fulfill false o ask).1 bid) (fulfill false o ask).2.1 := by
  intro b hb a ha
  have hstop := fulfill_stop o ask hq a ha
  rw [hside] at hstop
  have hlt : o.price < a.price := by
    simp only [crosses, decide_eq_false_iff_not] at hstop
    exact lt_of_not_le hstop
  refine insertBid_head_lt _ _ a.price ?_ ?_ b hb
  · rw [fulfill_rem_price]
    exact hlt
  · intro x hx
    obtain ⟨z, hz, he⟩ := fulfill_price_mem false o ask a (List.mem_of_mem_head? ha)
    cases ask with
    | nil => simp at hz
    | cons a0 as =>
      have h1 : a0.price ≤ z.price := bestAsk_le_mem hsa (by simp) hz
      have h2 : x.price < a0.price := hu x hx a0 (by simp)
      rw [he]
      exact lt_of_lt_of_le h2 h1

/-- Inserting the positive remainder of a limit ask after fulfillment
against the bid book keeps the pair uncrossed. -/
theorem uncrossed_insertRemAsk (bid ask : List Order) (o : Order)
    (hsb : sortedBid bid) (hu : uncrossed bid ask)
    (hside : o.side = Side.ask)
    (hq : (fulfill false o bid).1.qty ≠ 0) :
    uncrossed (fulfill false o bid).2.1 (insertAsk (fulfill false o bid).1 ask) := by
  intro b hb a ha
  have hstop := fulfill_stop o bid hq b hb
  rw [hside] at hstop
  have hlt : b.price < o.price := by
    simp only [crosses, decide_eq_false_iff_not] at hstop
    exact lt_of_not_le hstop
  refine insertAsk_head_gt _ _ b.price ?_ ?_ a ha
  · rw [fulfill_rem_price]
    exact hlt
  · intro x hx
    obtain ⟨z, hz, he⟩ := fulfill_price_mem false o bid b (List.mem_of_mem_head? hb)
    cases bid with
    | nil => simp at hz
    | cons b0 bs =>
      have h1 : z.price ≤ b0.price := mem_le_bestBid hsb (by simp) hz
      have h2 : b0.price < x.price := hu b0 (by simp) x hx
      rw [he]
      exact lt_of_le_of_lt h1 h2

/-- C2: for every order and every sorted, uncrossed book state, after any
`fulfill`, `limit_order` or `market_order` call completes, the order book is
never crossed: whenever both sides are non-empty, the best bid price is
strictly less than the best ask price. -/
theorem c2_book_never_crossed (s : ExchangeState) (o : Order)
    (hsb : sortedBid s.bid) (hsa : sortedAsk s.ask)
    (hu : uncrossed s.bid s.ask) :
    (∀ s2, ExchangeAgent.limit_order o s = .ok s2 → uncrossed s2.bid s2.ask) ∧
    uncrossed (ExchangeAgent.market_order o s).2.bid
      (ExchangeAgent.market_order o s).2.ask ∧
    (∀ m, uncrossed s.bid (fulfill m o s.ask).2.1 ∧
      uncrossed (fulfill m o s.bid).2.1 s.ask) := by
  refine ⟨?_, ?_, fun m =>
    ⟨uncrossed_fulfillR _ _ hsa hu m o, uncrossed_fulfillL _ _ hsb hu m o⟩⟩
  · intro s2 hlo
    rcases hbid : s.bid with _ | ⟨b0, bs⟩
    · simp [ExchangeAgent.limit_order, ExchangeAgent.spread, hbid,
        Bind.bind, Except.bind] at hlo
    rcases hask : s.ask with _ | ⟨a0, as⟩
    · simp [ExchangeAgent.limit_order, ExchangeAgent.spread, hbid, hask,
        Bind.bind, Except.bind] at hlo
    rw [hbid] at hsb hu
    rw [hask] at hsa hu
    simp only [ExchangeAgent.limit_order, ExchangeAgent.spread, hbid, hask,
      Bind.bind, Except.bind, Pure.pure, Except.pure] at hlo
    by_cases hz : b0.price = 0 ∨ a0.price = 0
    · rw [if_pos hz] at hlo
      obtain rfl : s = s2 := by injection hlo
      simpa [hbid, hask] using hu
    rw [if_neg hz] at hlo
    by_cases hq : o.qty = 0
    · rw [if_pos hq] at hlo
      obtain rfl : s = s2 := by injection hlo
      simpa [hbid, hask] using hu
    rw [if_neg hq] at hlo
    split at hlo
    · rename_i hside
      by_cases hcr : a0.price ≤ o.price
      · rw [if_pos hcr] at hlo
        by_cases hpos : 0 < (fulfill false o (a0 :: as)).1.qty
        · rw [if_pos hpos] at hlo
          obtain rfl := (Except.ok.injEq _ _).mp hlo
          have := uncrossed_insertRemBid (b0 :: bs) (a0 :: as) o hsa hu hside
            (Nat.pos_iff_ne_zero.mp hpos)
          simpa [hbid, hask] using this
        · rw [if_neg hpos] at hlo
          obtain rfl := (Except.ok.injEq _ _).mp hlo
          have := uncrossed_fulfillR (b0 :: bs) (a0 :: as) hsa hu false o
          simpa [hbid, hask] using this
      · rw [if_neg hcr] at hlo
        by_cases hpos : 0 < o.qty
        · rw [if_pos hpos] at hlo
          obtain rfl := (Except.ok.injEq _ _).mp hlo
          have hins : uncrossed (insertBid o (b0 :: bs)) (a0 :: as) := by
            intro b hb a ha
            have ha0 : a0 = a := by simpa using ha
            subst ha0
            refine insertBid_head_lt o (b0 :: bs) a0.price (lt_of_not_le hcr) ?_ b hb
            intro x hx
            exact hu x hx a0 (by simp)
          simpa [hbid, hask] using hins
        · exact absurd (Nat.pos_of_ne_zero hq) hpos
    · rename_i hside
      by_cases hcr : o.price ≤ b0.price
      · rw [if_pos hcr] at hlo
        by_cases hpos : 0 < (fulfill false o (b0 :: bs)).1.qty
        · rw [if_pos hpos] at hlo
          obtain rfl := (Except.ok.injEq _ _).mp hlo
          have := uncrossed_insertRemAsk (b0 :: bs) (a0 :: as) o hsb hu hside
            (Nat.pos_iff_ne_zero.mp hpos)
          simpa [hbid, hask] using this
        · rw [if_neg hpos] at hlo
          obtain rfl := (Except.ok.injEq _ _).mp hlo
          have := uncrossed_fulfillL (b0 :: bs) (a0 :: as) hsb hu false o
          simpa [hbid, hask] using this
      · rw [if_neg hcr] at hlo
        by_cases hpos : 0 < o.qty
        · rw [if_pos hpos] at hlo
          obtain rfl := (Except.ok.injEq _ _).mp hlo
          have hins : uncrossed (b0 :: bs) (insertAsk o (a0 :: as)) := by
            intro b hb a ha
            have hb0 : b0 = b := by simpa using hb
            subst hb0
            refine insertAsk_head_gt o (a0 :: as) b0.price (lt_of_not_le hcr) ?_ a ha
            intro x hx
            exact hu b0 (by simp) x hx
          simpa [hbid, hask] using hins
        · exact absurd (Nat.pos_of_ne_zero hq) hpos
  · by_cases hq : o.qty = 0
    · simp only [ExchangeAgent.market_order, if_pos hq]
      exact hu
    · simp only [ExchangeAgent.market_order, if_neg hq]
      cases hside : o.side
      · simp only [hside]
        exact uncrossed_fulfillR s.bid s.ask hsa hu true o
      · simp only [hside]
        exact uncrossed_fulfillL s.bid s.ask hsb hu true o

/-- Concrete valid book used to instantiate theorems with hypotheses. -/
def sampleBook : ExchangeState :=
  { bid := [⟨99, 2, Side.bid⟩]
    ask := [⟨101, 3, Side.ask⟩]
    lastTrades := []
    riskFreeRate := 0
    transactionCost := 0 }

/-- Witness for C2 at a concrete book and order. -/
theorem c2_book_never_crossed_witness :
    (sortedBid sampleBook.bid ∧ sortedAsk sampleBook.ask ∧
      uncrossed sampleBook.bid sampleBook.ask) ∧
    ((∀ s2, ExchangeAgent.limit_order ⟨100, 1, Side.bid⟩ sampleBook = .ok s2 →
        uncrossed s2.bid s2.ask) ∧
      uncrossed (ExchangeAgent.market_order ⟨100, 1, Side.bid⟩ sampleBook).2.bid
        (ExchangeAgent.market_order ⟨100, 1, Side.bid⟩ sampleBook).2.ask ∧
      (∀ m, uncrossed sampleBook.bid
          (fulfill m ⟨100, 1, Side.bid⟩ sampleBook.ask).2.1 ∧
        uncrossed (fulfill m ⟨100, 1, Side.bid⟩ sampleBook.bid).2.1 sampleBook.ask)) :=
  ⟨⟨by decide, by decide, by decide⟩,
    c2_book_never_crossed sampleBook ⟨100, 1, Side.bid⟩
      (by decide) (by decide) (by decide)⟩

/-- Total quantity traded in a ghost match list. -/
def execQtySum (es : List Exec) : ℕ := (es.map Exec.qty).sum

/-- Every ghost match of `fulfill` trades at the price of some resting order
of the original book and for no more than that order's quantity. -/
theorem fulfill_exec_mem (m : Bool) (o : Order) (l : List Order) :
    ∀ e ∈ (fulfill m o l).2.2, ∃ x ∈ l, e.price = x.price ∧ e.qty ≤ x.qty := by
  induction l generalizing o with
  | nil => intro e he; simp [fulfill] at he
  | cons x xs ih =>
    intro e he
    simp only [fulfill] at he
    by_cases h0 : o.qty = 0
    · rw [if_pos h0] at he
      simp at he
    · rw [if_neg h0] at he
      by_cases hc : (m || crosses o.side o.price x.price) = true
      · rw [if_pos hc] at he
        by_cases hle : x.qty ≤ o.qty
        · rw [if_pos hle] at he
          rcases List.mem_cons.mp he with h1 | h1
          · exact ⟨x, List.mem_cons_self _ _, by rw [h1], by rw [h1]⟩
          · obtain ⟨z, hz, he1, he2⟩ := ih _ e h1
            exact ⟨z, List.mem_cons_of_mem _ hz, he1, he2⟩
        · rw [if_neg hle] at he
          have h1 : e = ⟨x.price, o.qty⟩ := by simpa using he
          refine ⟨x, List.mem_cons_self _ _, by rw [h1], ?_⟩
          rw [h1]
          exact le_of_lt (lt_of_not_le hle)
      · rw [if_neg hc] at he
        simp at he

/-- Conservation of quantity across one matching call: the quantity traded
in the ghost matches plus the remainder equals the incoming quantity. -/
theorem fulfill_conservation (m : Bool) (o : Order) (l : List Order) :
    execQtySum (fulfill m o l).2.2 + (fulfill m o l).1.qty = o.qty := by
  induction l generalizing o with
  | nil => simp [fulfill, execQtySum]
  | cons x xs ih =>
    simp only [fulfill]
    by_cases h0 : o.qty = 0
    · rw [if_pos h0]
      simp [execQtySum, h0]
    · rw [if_neg h0]
      by_cases hc : (m || crosses o.side o.price x.price) = true
      · rw [if_pos hc]
        by_cases hle : x.qty ≤ o.qty
        · rw [if_pos hle]
          have := ih ({ o with qty := o.qty - x.qty })
          simp only [execQtySum, List.map_cons, List.sum_cons] at this ⊢
          omega
        · rw [if_neg hle]
          simp [execQtySum]
      · rw [if_neg hc]
        simp [execQtySum]

/-- Market-mode fulfillment consumes exactly the minimum of the incoming
quantity and the total opposite liquidity. -/
theorem fulfill_market_rem (o : Order) (l : List Order) :
    (fulfill true o l).1.qty = o.qty - min o.qty (totalQty l) := by
  induction l generalizing o with
  | nil => simp [fulfill, totalQty]
  | cons x xs ih =>
    simp only [fulfill, Bool.true_or]
    by_cases h0 : o.qty = 0
    · rw [if_pos h0]
      simp [h0]
    · rw [if_neg h0, if_pos trivial]
      by_cases hle : x.qty ≤ o.qty
      · rw [if_pos hle]
        have := ih ({ o with qty := o.qty - x.qty })
        simp only [totalQty, List.map_cons, List.sum_cons] at this ⊢
        omega
      · rw [if_neg hle]
        simp only [totalQty, List.map_cons, List.sum_cons]
        omega

/-- First ghost match of market-mode fulfillment against a non-empty book:
the minimum of the two remaining quantities is traded at the price of the
best resting order. -/
theorem fulfill_market_head_exec (o x : Order) (xs : List Order)
    (hq : o.qty ≠ 0) :
    (fulfill true o (x :: xs)).2.2.head? = some ⟨x.price, min o.qty x.qty⟩ := by
  simp only [fulfill, Bool.true_or]
  rw [if_neg hq, if_pos trivial]
  by_cases hle : x.qty ≤ o.qty
  · rw [if_pos hle]
    simp [min_eq_right hle]
  · rw [if_neg hle]
    simp [min_eq_left (le_of_lt (lt_of_not_le hle))]

/-- Book with both sides non-empty but a zero best bid price, reaching the
`not bid or not ask` guard of `limit_order`. -/
def zeroBidBook : ExchangeState :=
  { bid := [⟨0, 1, Side.bid⟩]
    ask := [⟨10, 1, Side.ask⟩]
    lastTrades := []
    riskFreeRate := 0
    transactionCost := 0 }

/-- Counterexample to C3: both book sides are non-empty and the incoming ask
of positive quantity at price 5 does not cross the best bid, yet
`limit_order` returns the state unchanged instead of inserting the order
into the ask side: the guard `not bid or not ask` of exchange.py line 299
fires because the best bid price equals 0. -/
theorem c3_counterexample :
    (ExchangeAgent.limit_order ⟨5, 1, Side.ask⟩ zeroBidBook).toOption
        = some zeroBidBook ∧
    zeroBidBook.bid ≠ [] ∧ zeroBidBook.ask ≠ [] ∧
    (⟨5, 1, Side.ask⟩ : Order) ∉ zeroBidBook.ask := by
  refine ⟨rfl, by decide, by decide, by decide⟩

/-- C3 (amended with non-zero best prices): for every limit order with
positive quantity on a market with both sides non-empty and non-zero best
prices, a crossing order is routed through `fulfill` against the opposite
book and any remainder of positive quantity is inserted into its own side,
while a non-crossing order is inserted directly, leaving the opposite side
untouched. -/
theorem c3_limit_order_routing (s : ExchangeState) (o : Order)
    (b0 a0 : Order) (bs as : List Order)
    (hbid : s.bid = b0 :: bs) (hask : s.ask = a0 :: as)
    (hbz : b0.price ≠ 0) (haz : a0.price ≠ 0) (hq : o.qty ≠ 0) :
    (o.side = Side.bid →
      (a0.price ≤ o.price →
        ExchangeAgent.limit_order o s = .ok { s with
          ask := (fulfill false o s.ask).2.1
          bid := if 0 < (fulfill false o s.ask).1.qty then
              insertBid (fulfill false o s.ask).1 s.bid else s.bid }) ∧
      (¬ a0.price ≤ o.price →
        ExchangeAgent.limit_order o s = .ok { s with bid := insertBid o s.bid })) ∧
    (o.side = Side.ask →
      (o.price ≤ b0.price →
        ExchangeAgent.limit_order o s = .ok { s with
          bid := (fulfill false o s.bid).2.1
          ask := if 0 < (fulfill false o s.bid).1.qty then
              insertAsk (fulfill false o s.bid).1 s.ask else s.ask }) ∧
      (¬ o.price ≤ b0.price →
        ExchangeAgent.limit_order o s = .ok { s with ask := insertAsk o s.ask })) := by
  have hng : ¬ (b0.price = 0 ∨ a0.price = 0) := by
    simp [hbz, haz]
  obtain ⟨p, q, sd⟩ := o
  replace hq : q ≠ 0 := hq
  constructor
  · intro hside
    replace hside : sd = Side.bid := hside
    subst hside
    constructor
    · intro hcr
      simp only [ExchangeAgent.limit_order, ExchangeAgent.spread, hbid, hask,
        Bind.bind, Except.bind, Pure.pure, Except.pure]
      rw [if_neg hng, if_neg hq, if_pos hcr]
      by_cases hpos : 0 < (fulfill false ⟨p, q, Side.bid⟩ (a0 :: as)).1.qty
      · rw [if_pos hpos, if_pos hpos]
      · rw [if_neg hpos, if_neg hpos]
    · intro hcr
      simp only [ExchangeAgent.limit_order, ExchangeAgent.spread, hbid, hask,
        Bind.bind, Except.bind, Pure.pure, Except.pure]
      rw [if_neg hng, if_neg hq, if_neg hcr, if_pos (Nat.pos_of_ne_zero hq)]
  · intro hside
    replace hside : sd = Side.ask := hside
    subst hside
    constructor
    · intro hcr
      simp only [ExchangeAgent.limit_order, ExchangeAgent.spread, hbid, hask,
        Bind.bind, Except.bind, Pure.pure, Except.pure]
      rw [if_neg hng, if_neg hq, if_pos hcr]
      by_cases hpos : 0 < (fulfill false ⟨p, q, Side.ask⟩ (b0 :: bs)).1.qty
      · rw [if_pos hpos, if_pos hpos]
      · rw [if_neg hpos, if_neg hpos]
    · intro hcr
      simp only [ExchangeAgent.limit_order, ExchangeAgent.spread, hbid, hask,
        Bind.bind, Except.bind, Pure.pure, Except.pure]
      rw [if_neg hng, if_neg hq, if_neg hcr, if_pos (Nat.pos_of_ne_zero hq)]

/-- Witness for the amended C3 at a concrete book and order. -/
theorem c3_limit_order_routing_witness :
    (sampleBook.bid = [⟨99, 2, Side.bid⟩] ∧ sampleBook.ask = [⟨101, 3, Side.ask⟩] ∧
      (⟨99, 2, Side.bid⟩ : Order).price ≠ 0 ∧ (⟨101, 3, Side.ask⟩ : Order).price ≠ 0 ∧
      (⟨100, 1, Side.bid⟩ : Order).qty ≠ 0) ∧
    (((⟨100, 1, Side.bid⟩ : Order).side = Side.bid →
      ((⟨101, 3, Side.ask⟩ : Order).price ≤ (⟨100, 1, Side.bid⟩ : Order).price →
        ExchangeAgent.limit_order ⟨100, 1, Side.bid⟩ sampleBook = .ok { sampleBook with
          ask := (fulfill false ⟨100, 1, Side.bid⟩ sampleBook.ask).2.1
          bid := if 0 < (fulfill false ⟨100, 1, Side.bid⟩ sampleBook.ask).1.qty then
              insertBid (fulfill false ⟨100, 1, Side.bid⟩ sampleBook.ask).1 sampleBook.bid
            else sampleBook.bid }) ∧
      (¬ (⟨101, 3, Side.ask⟩ : Order).price ≤ (⟨100, 1, Side.bid⟩ : Order).price →
        ExchangeAgent.limit_order ⟨100, 1, Side.bid⟩ sampleBook = .ok { sampleBook with
          bid := insertBid ⟨100, 1, Side.bid⟩ sampleBook.bid })) ∧
    ((⟨100, 1, Side.bid⟩ : Order).side = Side.ask →
      ((⟨100, 1, Side.bid⟩ : Order).price ≤ (⟨99, 2, Side.bid⟩ : Order).price →
        ExchangeAgent.limit_order ⟨100, 1, Side.bid⟩ sampleBook = .ok { sampleBook with
          bid := (fulfill false ⟨100, 1, Side.bid⟩ sampleBook.bid).2.1
          ask := if 0 < (fulfill false ⟨100, 1, Side.bid⟩ sampleBook.bid).1.qty then
              insertAsk (fulfill false ⟨100, 1, Side.bid⟩ sampleBook.bid).1 sampleBook.ask
            else sampleBook.ask }) ∧
      (¬ (⟨100, 1, Side.bid⟩ : Order).price ≤ (⟨99, 2, Side.bid⟩ : Order).price →
        ExchangeAgent.limit_order ⟨100, 1, Side.bid⟩ sampleBook = .ok { sampleBook with
          ask := insertAsk ⟨100, 1, Side.bid⟩ sampleBook.ask }))) :=
  ⟨⟨rfl, rfl, by decide, by decide, by decide⟩,
    c3_limit_order_routing sampleBook ⟨100, 1, Side.bid⟩ ⟨99, 2, Side.bid⟩
      ⟨101, 3, Side.ask⟩ [] [] rfl rfl (by decide) (by decide) (by decide)⟩

/-- C4: every market order of non-zero quantity is routed through `fulfill`
against the opposite book regardless of its limit price; the returned
remainder quantity is the incoming quantity minus the minimum of the
incoming quantity and the total opposite liquidity (zero when the opposite
book holds at least the incoming quantity), and it is returned, never
raised (the function is total). -/
theorem c4_market_order_remainder (s : ExchangeState) (o : Order)
    (hq : o.qty ≠ 0) :
    (o.side = Side.bid →
      (ExchangeAgent.market_order o s).1 = (fulfill true o s.ask).1 ∧
      (ExchangeAgent.market_order o s).1.qty = o.qty - min o.qty (totalQty s.ask)) ∧
    (o.side = Side.ask →
      (ExchangeAgent.market_order o s).1 = (fulfill true o s.bid).1 ∧
      (ExchangeAgent.market_order o s).1.qty = o.qty - min o.qty (totalQty s.bid)) := by
  constructor
  · intro hside
    refine ⟨?_, ?_⟩ <;>
      simp only [ExchangeAgent.market_order, if_neg hq, hside]
    exact fulfill_market_rem o s.ask
  · intro hside
    refine ⟨?_, ?_⟩ <;>
      simp only [ExchangeAgent.market_order, if_neg hq, hside]
    exact fulfill_market_rem o s.bid

/-- Witness for C4: a market bid for 5 against total ask liquidity 3 leaves
remainder 2. -/
theorem c4_market_order_remainder_witness :
    ((⟨100, 5, Side.bid⟩ : Order).qty ≠ 0) ∧
    (((⟨100, 5, Side.bid⟩ : Order).side = Side.bid →
      (ExchangeAgent.market_order ⟨100, 5, Side.bid⟩ sampleBook).1
        = (fulfill true ⟨100, 5, Side.bid⟩ sampleBook.ask).1 ∧
      (ExchangeAgent.market_order ⟨100, 5, Side.bid⟩ sampleBook).1.qty
        = (⟨100, 5, Side.bid⟩ : Order).qty -
          min (⟨100, 5, Side.bid⟩ : Order).qty (totalQty sampleBook.ask)) ∧
    ((⟨100, 5, Side.bid⟩ : Order).side = Side.ask →
      (ExchangeAgent.market_order ⟨100, 5, Side.bid⟩ sampleBook).1
        = (fulfill true ⟨100, 5, Side.bid⟩ sampleBook.bid).1 ∧
      (ExchangeAgent.market_order ⟨100, 5, Side.bid⟩ sampleBook).1.qty
        = (⟨100, 5, Side.bid⟩ : Order).qty -
          min (⟨100, 5, Side.bid⟩ : Order).qty (totalQty sampleBook.bid))) :=
  ⟨by decide, c4_market_order_remainder sampleBook ⟨100, 5, Side.bid⟩ (by decide)⟩

/-- Book with no resting orders at all. -/
def emptyBook : ExchangeState :=
  { bid := []
    ask := []
    lastTrades := []
    riskFreeRate := 0
    transactionCost := 0 }

/-- Counterexample to C5: a market order that finds no opposite liquidity
executes nothing (no ghost match) yet one entry is appended to the last-tick
trade tape, with the incoming order's own price and full quantity: the tape
append of exchange.py line 322 happens before matching and regardless of
execution. -/
theorem c5_counterexample :
    (ExchangeAgent.market_order ⟨100, 3, Side.bid⟩ emptyBook).2.lastTrades
        = [⟨100, 3, Side.bid⟩] ∧
    (fulfill true (⟨100, 3, Side.bid⟩ : Order) emptyBook.ask).2.2 = [] ∧
    (ExchangeAgent.market_order ⟨100, 3, Side.bid⟩ emptyBook).1.qty = 3 := by
  refine ⟨rfl, rfl, rfl⟩

/-- C5 (amended): each individual match of `fulfill` trades the minimum of
the incoming and resting remaining quantities at the resting order's price
(matched quantities are conserved and bounded by the resting quantities),
while the market's last-tick trade tape receives exactly one entry per
`market_order` call with non-zero quantity, recording the incoming order's
own limit price, its full pre-match quantity and its side, appended before
matching; `limit_order` records nothing. -/
theorem c5_trade_tape (s : ExchangeState) (o : Order) (hq : o.qty ≠ 0) :
    (ExchangeAgent.market_order o s).2.lastTrades
      = s.lastTrades ++ [⟨o.price, o.qty, o.side⟩] ∧
    (∀ l, ∀ e ∈ (fulfill true o l).2.2, ∃ x ∈ l, e.price = x.price ∧ e.qty ≤ x.qty) ∧
    (∀ l, execQtySum (fulfill true o l).2.2 + (fulfill true o l).1.qty = o.qty) ∧
    (∀ x xs, (fulfill true o (x :: xs)).2.2.head? = some ⟨x.price, min o.qty x.qty⟩) ∧
    (∀ s2, ExchangeAgent.limit_order o s = .ok s2 → s2.lastTrades = s.lastTrades) := by
  refine ⟨?_, fun l => fulfill_exec_mem true o l, fun l => fulfill_conservation true o l,
    fun x xs => fulfill_market_head_exec o x xs hq, ?_⟩
  · simp only [ExchangeAgent.market_order, if_neg hq]
    cases hside : o.side
    · simp only [hside]
    · simp only [hside]
  · intro s2 hlo
    rcases hbid : s.bid with _ | ⟨b0, bs⟩
    · simp [ExchangeAgent.limit_order, ExchangeAgent.spread, hbid,
        Bind.bind, Except.bind] at hlo
    rcases hask : s.ask with _ | ⟨a0, as⟩
    · simp [ExchangeAgent.limit_order, ExchangeAgent.spread, hbid, hask,
        Bind.bind, Except.bind] at hlo
    simp only [ExchangeAgent.limit_order, ExchangeAgent.spread, hbid, hask,
      Bind.bind, Except.bind, Pure.pure, Except.pure] at hlo
    by_cases hz : b0.price = 0 ∨ a0.price = 0
    · rw [if_pos hz] at hlo
      obtain rfl : s = s2 := by injection hlo
      rfl
    rw [if_neg hz, if_neg hq] at hlo
    split at hlo <;> split at hlo <;> split at hlo <;>
      (obtain rfl := (Except.ok.injEq _ _).mp hlo; rfl)

/-- Witness for the amended C5 at a concrete book and order. -/
theorem c5_trade_tape_witness :
    ((⟨102, 4, Side.bid⟩ : Order).qty ≠ 0) ∧
    ((ExchangeAgent.market_order ⟨102, 4, Side.bid⟩ sampleBook).2.lastTrades
        = sampleBook.lastTrades ++
          [⟨(⟨102, 4, Side.bid⟩ : Order).price, (⟨102, 4, Side.bid⟩ : Order).qty,
            (⟨102, 4, Side.bid⟩ : Order).side⟩] ∧
    (∀ l, ∀ e ∈ (fulfill true (⟨102, 4, Side.bid⟩ : Order) l).2.2,
      ∃ x ∈ l, e.price = x.price ∧ e.qty ≤ x.qty) ∧
    (∀ l, execQtySum (fulfill true (⟨102, 4, Side.bid⟩ : Order) l).2.2 +
        (fulfill true (⟨102, 4, Side.bid⟩ : Order) l).1.qty
      = (⟨102, 4, Side.bid⟩ : Order).qty) ∧
    (∀ x xs, (fulfill true (⟨102, 4, Side.bid⟩ : Order) (x :: xs)).2.2.head?
      = some ⟨x.price, min (⟨102, 4, Side.bid⟩ : Order).qty x.qty⟩) ∧
    (∀ s2, ExchangeAgent.limit_order (⟨102, 4, Side.bid⟩ : Order) sampleBook = .ok s2 →
      s2.lastTrades = sampleBook.lastTrades)) :=
  ⟨by decide, c5_trade_tape sampleBook ⟨102, 4, Side.bid⟩ (by decide)⟩


/-- Iterated dividend updates, one per simulated tick, each consuming one
sampled noise factor. -/
def Stock.updates (es : List ℚ) (s : Stock) : Stock :=
  es.foldl (fun t e => Stock.update e t) s

/-- One `Stock.update` preserves the dividend-buffer length. -/
theorem stock_update_len (e : ℚ) (s : Stock) :
    (Stock.update e s).dividend_book.length = s.dividend_book.length := by
  cases hb : s.dividend_book with
  | nil => simp [Stock.update, Stock.fillOne, hb]
  | cons x xs => simp [Stock.update, Stock.fillOne, hb]

/-- One `Stock.update` preserves non-negativity of the current dividend and
of every buffered dividend. -/
theorem stock_update_nonneg (e : ℚ) (s : Stock)
    (hs : 0 ≤ s.dividend) (hb : ∀ d ∈ s.dividend_book, 0 ≤ d) :
    0 ≤ (Stock.update e s).dividend ∧
    ∀ d ∈ (Stock.update e s).dividend_book, 0 ≤ d := by
  cases hbk : s.dividend_book with
  | nil =>
    simp only [Stock.update, Stock.fillOne, hbk]
    exact ⟨hs, by simp⟩
  | cons x xs =>
    have hlast : 0 ≤ (x :: xs).getLastD 0 := by
      have hm : (x :: xs).getLastD 0 ∈ x :: xs := by
        rw [List.getLastD_eq_getLast?, List.getLast?_eq_getLast _ (by simp)]
        exact List.getLast_mem _
      exact hb _ (hbk ▸ hm)
    have hnext : 0 ≤ nextDividend e ((x :: xs).getLastD 0) :=
      mul_nonneg hlast (le_max_right e 0)
    simp only [Stock.update, Stock.fillOne, hbk, List.cons_append]
    refine ⟨hb x (by rw [hbk]; exact List.mem_cons_self _ _), ?_⟩
    intro d hd
    rcases List.mem_append.mp hd with h1 | h1
    · exact hb d (by rw [hbk]; exact List.mem_cons_of_mem _ h1)
    · have : d = nextDividend e ((x :: xs).getLastD 0) := by simpa using h1
      exact this ▸ hnext

/-- Counterexample to C8 as stated: with current dividend 4 and buffer
[2, 3], an update with noise factor 1 appends 3 (the newest buffered
dividend times the factor), not 4 = current times factor (nor 2, the
post-update current times the factor). -/
theorem c8_counterexample :
    (Stock.update 1 ⟨4, [2, 3]⟩).dividend = 2 ∧
    (Stock.update 1 ⟨4, [2, 3]⟩).dividend_book = [3, 3] ∧
    (Stock.update 1 ⟨4, [2, 3]⟩).dividend_book.getLastD 0 ≠
      nextDividend 1 (Stock.mk 4 [2, 3]).dividend ∧
    (Stock.update 1 ⟨4, [2, 3]⟩).dividend_book.getLastD 0 ≠
      nextDividend 1 (Stock.update 1 ⟨4, [2, 3]⟩).dividend := by
  have h : Stock.update 1 ⟨4, [2, 3]⟩ = ⟨2, [3, 3]⟩ := by
    simp [Stock.update, Stock.fillOne, nextDividend]
  rw [h]
  refine ⟨rfl, rfl, ?_, ?_⟩ <;> simp [nextDividend]

/-- C8 (amended): every `update()` appends one freshly sampled dividend
equal to the newest buffered dividend times the noise factor floored at
zero, and then pops the oldest buffered dividend into the current dividend;
hence for every stock whose current and buffered dividends are non-negative,
after any number of updates the buffer keeps its length and the current
dividend is never negative. -/
theorem c8_dividend_update (s : Stock) (e : ℚ)
    (hs : 0 ≤ s.dividend) (hb : ∀ d ∈ s.dividend_book, 0 ≤ d) :
    (∀ x xs, s.dividend_book = x :: xs →
      Stock.update e s =
        ⟨x, xs ++ [nextDividend e ((x :: xs).getLastD 0)]⟩) ∧
    (∀ es, (Stock.updates es s).dividend_book.length = s.dividend_book.length ∧
      0 ≤ (Stock.updates es s).dividend ∧
      ∀ d ∈ (Stock.updates es s).dividend_book, 0 ≤ d) := by
  constructor
  · intro x xs hbk
    simp [Stock.update, Stock.fillOne, hbk]
  · intro es
    induction es generalizing s with
    | nil => exact ⟨rfl, hs, hb⟩
    | cons e0 es ih =>
      obtain ⟨h1, h2⟩ := stock_update_nonneg e0 s hs hb
      obtain ⟨hl, hd, hbk⟩ := ih (Stock.update e0 s) h1 h2
      refine ⟨?_, hd, hbk⟩
      have hstep : Stock.updates (e0 :: es) s = Stock.updates es (Stock.update e0 s) := rfl
      rw [hstep, hl, stock_update_len]


/-- Witness for the amended C8 at a concrete stock and noise factor. -/
theorem c8_dividend_update_witness :
    ((0:ℚ) ≤ (Stock.mk 4 [2, 3]).dividend ∧
      (∀ d ∈ (Stock.mk 4 [2, 3]).dividend_book, (0:ℚ) ≤ d)) ∧
    ((∀ x xs, (Stock.mk 4 [2, 3]).dividend_book = x :: xs →
      Stock.update 1 (Stock.mk 4 [2, 3]) =
        ⟨x, xs ++ [nextDividend 1 ((x :: xs).getLastD 0)]⟩) ∧
    (∀ es, (Stock.updates es (Stock.mk 4 [2, 3])).dividend_book.length
        = (Stock.mk 4 [2, 3]).dividend_book.length ∧
      0 ≤ (Stock.updates es (Stock.mk 4 [2, 3])).dividend ∧
      ∀ d ∈ (Stock.updates es (Stock.mk 4 [2, 3])).dividend_book, 0 ≤ d)) :=
  ⟨⟨by norm_num, by intro d hd; fin_cases hd <;> norm_num⟩,
    c8_dividend_update (Stock.mk 4 [2, 3]) 1 (by norm_num)
      (by intro d hd; fin_cases hd <;> norm_num)⟩


/-- C10: for every order submitted via `limit_order` to a market in which
either book side is empty, the exception raised by the initial `spread()`
query propagates before the function's own empty-side guard can run: the
call returns the spread error, no new state is produced, so the order is
neither matched nor inserted and a limit order can never come to rest on a
one-sided or empty book. -/
theorem c10_limit_order_empty_side (s : ExchangeState) (o : Order)
    (h : s.bid = [] ∨ s.ask = []) :
    ExchangeAgent.limit_order o s = .error "There no either bid | ask orders" := by
  rcases h with h | h
  · simp [ExchangeAgent.limit_order, ExchangeAgent.spread, h,
      Bind.bind, Except.bind]
  · cases hb : s.bid with
    | nil =>
      simp [ExchangeAgent.limit_order, ExchangeAgent.spread, hb,
        Bind.bind, Except.bind]
    | cons b0 bs =>
      simp [ExchangeAgent.limit_order, ExchangeAgent.spread, hb, h,
        Bind.bind, Except.bind]

/-- Witness for C10 at a concrete one-sided book. -/
theorem c10_limit_order_empty_side_witness :
    (emptyBook.bid = [] ∨ emptyBook.ask = []) ∧
    ExchangeAgent.limit_order ⟨100, 1, Side.bid⟩ emptyBook
      = .error "There no either bid | ask orders" :=
  ⟨Or.inl rfl, c10_limit_order_empty_side emptyBook ⟨100, 1, Side.bid⟩ (Or.inl rfl)⟩


/-! Model of the ambient `random` module.  `random.seed(n)` fixes a
deterministic stream of draws; the module becomes an oracle giving, for each
seed, the streams of values produced by its generators, consumed through an
explicit draw counter.  The channels carry `random.random()` values,
`random.expovariate` values, the integers behind `randint`/`shuffle`, and
the composite factors `exp(normalvariate(0, std))` drawn by
`Stock._next_dividend`. -/

structure DrawStream where
  val : ℕ → ℚ
  expo : ℕ → ℚ
  natR : ℕ → ℕ
  factor : ℕ → ℚ

/-- Seed-indexed family of draw streams: the whole `random` module. -/
structure RandomOracle where
  val : ℕ → ℕ → ℚ
  expo : ℕ → ℕ → ℚ
  natR : ℕ → ℕ → ℕ
  factor : ℕ → ℕ → ℚ

/-- Effect of `random.seed(sd)`: every subsequent draw comes from the
stream determined by `sd` alone. -/
def RandomOracle.atSeed (g : RandomOracle) (sd : ℕ) : DrawStream :=
  ⟨g.val sd, g.expo sd, g.natR sd, g.factor sd⟩

def drawVal (f : DrawStream) (k : ℕ) : ℚ × ℕ := (f.val k, k + 1)

def drawExpo (f : DrawStream) (k : ℕ) : ℚ × ℕ := (f.expo k, k + 1)

def drawFactor (f : DrawStream) (k : ℕ) : ℚ × ℕ := (f.factor k, k + 1)

/-- Model of `random.randint(a, b)`: one integer draw reduced into the
inclusive range. -/
def drawRandint (f : DrawStream) (a b k : ℕ) : ℕ × ℕ :=
  (a + f.natR k % (b + 1 - a), k + 1)

/-- Swap two positions of a list (out-of-range indices leave it unchanged;
the call sites stay in range). -/
def swapIdx {α : Type} (l : List α) (i j : ℕ) : List α :=
  match l.get? i, l.get? j with
  | some xi, some xj => (l.set i xj).set j xi
  | _, _ => l

/-- Fisher-Yates walk of `random.shuffle`: for i from the last index down
to 1, swap position i with a drawn position in [0, i]. -/
def shuffleAux {α : Type} (f : DrawStream) : ℕ → List α → ℕ → List α × ℕ
  | 0, l, k => (l, k)
  | i + 1, l, k =>
    shuffleAux f i (swapIdx l (i + 1) (f.natR k % (i + 2))) (k + 1)

/-- Model of `random.shuffle`. -/
def shuffleL {α : Type} (f : DrawStream) (l : List α) (k : ℕ) : List α × ℕ :=
  shuffleAux f (l.length - 1) l k

/-- State of a trader: cash, inventory and the list of its resting orders
(`Trader`/`SingleTrader` in traders.py).  The per-trade cash and inventory
transfers happen inside the missing `utils/orders.py` module and are not
modelled; no claim under study depends on them. -/
structure TraderState where
  cash : ℚ
  assets : ℤ
  orders : List Order
deriving DecidableEq, Repr

namespace SingleTrader

/-- Transcription of `SingleTrader._buy_market` (traders.py lines 72-81):
empty opposite book returns the quantity unfilled with no mutation; else a
market bid priced at the worst resting ask is routed through
`market_order`. -/
def buyMarket (q : ℚ) (s : ExchangeState) : ℚ × ExchangeState :=
  match s.ask.getLast? with
  | none => (q, s)
  | some worst =>
    let r := ExchangeAgent.market_order ⟨worst.price, pyRoundNat q, Side.bid⟩ s
    ((r.1.qty : ℚ), r.2)

/-- Transcription of `SingleTrader._sell_market` (traders.py lines 83-92). -/
def sellMarket (q : ℚ) (s : ExchangeState) : ℚ × ExchangeState :=
  match s.bid.getLast? with
  | none => (q, s)
  | some worst =>
    let r := ExchangeAgent.market_order ⟨worst.price, pyRoundNat q, Side.ask⟩ s
    ((r.1.qty : ℚ), r.2)

/-- Transcription of `SingleTrader._buy_limit` (traders.py lines 62-65):
the order is appended to the trader's own list, then submitted. -/
def buyLimit (q p : ℚ) (t : TraderState) (s : ExchangeState) :
    Except String (TraderState × ExchangeState) :=
  let o : Order := ⟨round1 p, pyRoundNat q, Side.bid⟩
  (ExchangeAgent.limit_order o s).map
    (fun s2 => ({ t with orders := t.orders ++ [o] }, s2))

/-- Transcription of `SingleTrader._sell_limit` (traders.py lines 67-70). -/
def sellLimit (q p : ℚ) (t : TraderState) (s : ExchangeState) :
    Except String (TraderState × ExchangeState) :=
  let o : Order := ⟨round1 p, pyRoundNat q, Side.ask⟩
  (ExchangeAgent.limit_order o s).map
    (fun s2 => ({ t with orders := t.orders ++ [o] }, s2))

/-- Transcription of `SingleTrader._cancel_order` (traders.py lines 94-96):
remove from the book, then from the trader's own list. -/
def cancelOrder (o : Order) (t : TraderState) (s : ExchangeState) :
    Except String (TraderState × ExchangeState) := do
  let s2 ← ExchangeAgent.cancel_order o s
  let l2 ← removeOrder o t.orders
  return ({ t with orders := l2 }, s2)

/-- Transcription of `SingleTrader.income` (traders.py lines 58-60):
dividend payment on inventory, then interest on the resulting cash. -/
def income (a : Stock) (rf : ℚ) (t : TraderState) : TraderState :=
  let c1 := t.cash + (t.assets : ℚ) * a.dividend
  { t with cash := c1 + c1 * rf }

/-- Transcription of `SingleTrader.equity` (traders.py lines 54-56). -/
def equity (s : ExchangeState) (t : TraderState) : Except String ℚ :=
  (ExchangeAgent.price s).map (fun p => t.cash + (t.assets : ℚ) * p)

end SingleTrader

namespace Random

/-- Transcription of `Random.draw_price` (traders.py lines 183-203): with
probability .35 a uniform draw inside the spread (one extra `random()`
draw, as in `random.uniform`), otherwise an exponential offset beyond the
best price on the order's own side. -/
def draw_price (f : DrawStream) (side : Side) (spr : Spread) (k : ℕ) : ℚ × ℕ :=
  let u := drawVal f k
  if u.1 < 7/20 then
    let u2 := drawVal f u.2
    (spr.bid + (spr.ask - spr.bid) * u2.1, u2.2)
  else
    let d := drawExpo f u.2
    match side with
    | Side.bid => (spr.bid - d.1, d.2)
    | Side.ask => (spr.ask + d.1, d.2)

/-- Transcription of `Random.call` (traders.py lines 215-249).  The first
statement queries `spread()`, whose exception propagates when a side is
empty; the guard `if spread is None: return` of line 217 can never fire
because `spread()` raises instead of returning None, so it has no
counterpart here.  Then one draw picks the side, a second draw picks among
market order (> .85), limit order (> .5), cancellation (< .35) or nothing. -/
def call (f : DrawStream) (k : ℕ) (t : TraderState) (s : ExchangeState) :
    Except String (TraderState × ExchangeState × ℕ) := do
  let spr ← ExchangeAgent.spread s
  let u1 := drawVal f k
  let side := if 1/2 < u1.1 then Side.bid else Side.ask
  let u2 := drawVal f u1.2
  if 17/20 < u2.1 then
    let q := drawRandint f 1 5 u2.2
    match side with
    | Side.bid => return (t, (SingleTrader.buyMarket (q.1 : ℚ) s).2, q.2)
    | Side.ask => return (t, (SingleTrader.sellMarket (q.1 : ℚ) s).2, q.2)
  else if 1/2 < u2.1 then
    let p := draw_price f side spr u2.2
    let q := drawRandint f 1 5 p.2
    match side with
    | Side.bid =>
      let r ← SingleTrader.buyLimit (q.1 : ℚ) p.1 t s
      return (r.1, r.2, q.2)
    | Side.ask =>
      let r ← SingleTrader.sellLimit (q.1 : ℚ) p.1 t s
      return (r.1, r.2, q.2)
  else if u2.1 < 7/20 then
    match t.orders with
    | [] => return (t, s, u2.2)
    | o1 :: rest =>
      let n := drawRandint f 0 ((o1 :: rest).length - 1) u2.2
      let r ← SingleTrader.cancelOrder ((o1 :: rest).getD n.1 o1) t s
      return (r.1, r.2, n.2)
  else
    return (t, s, u2.2)

end Random


/-- One telemetry row captured by `SimulatorInfo.capture` (simulator.py
lines 115-192), restricted to the series the claims under study mention:
price, spread, dividend, order-book depth, the tick's trade tape, and the
per-trader cash, inventory, equity and type.  The further feature series of
the source (smart price, trade sign, past returns, volume, normalized
spread) are read-only statistics of the same snapshot and are omitted. -/
structure CaptureRow where
  price : ℚ
  spreadRow : Spread
  dividend : ℚ
  depthBid : ℕ
  depthAsk : ℕ
  trades : List Trade
  cash : List ℚ
  assetsHeld : List ℤ
  equities : List ℚ
  types : List String
deriving DecidableEq, Repr

/-- Snapshot of the current state, from `SimulatorInfo.capture`: it reads
`price()`, `spread()` and each trader's equity, all of which raise on an
empty-sided book, and it records the tape as it stands (capture runs before
the tape is cleared). -/
def captureRow (ex : ExchangeState) (a : Stock) (ts : List TraderState) :
    Except String CaptureRow := do
  let p ← ExchangeAgent.price ex
  let spr ← ExchangeAgent.spread ex
  let eqs ← ts.mapM (fun t => SingleTrader.equity ex t)
  return { price := p
           spreadRow := spr
           dividend := a.dividend
           depthBid := ex.bid.length
           depthAsk := ex.ask.length
           trades := ex.lastTrades
           cash := ts.map TraderState.cash
           assetsHeld := ts.map TraderState.assets
           equities := eqs
           types := ts.map (fun _ => "Random") }

/-- Scenario event `MarketPriceShock` (extra/events.py lines 73-91): at its
trigger iteration it shifts the price of every resting order of the target
exchange by `dp`; at any other iteration it is inert (`Event.call` returns
True and the effect body is skipped). -/
structure MarketPriceShock where
  it : ℕ
  dp : ℚ
deriving DecidableEq, Repr

def MarketPriceShock.call (e : MarketPriceShock) (it : ℕ)
    (ex : ExchangeState) : ExchangeState :=
  if it ≠ e.it then ex
  else
    { ex with
      bid := ex.bid.map (fun o => { o with price := o.price + e.dp })
      ask := ex.ask.map (fun o => { o with price := o.price + e.dp }) }

/-- Simulator state: the seed stored in config.json (read by `get_seed` and
written by `increment_seed`), one exchange, its asset, the trader
population (instantiated at noise traders, the population of the claim's
reproducibility scenario), the linked events, and the telemetry rows. -/
structure SimState where
  configSeed : ℕ
  exchange : ExchangeState
  asset : Stock
  traders : List TraderState
  events : List MarketPriceShock
  rows : List CaptureRow
deriving DecidableEq, Repr

/-- Activation loop over the already shuffled traders: each one runs its
`call()` against the evolving exchange, threading the draw counter. -/
def agentsAct (f : DrawStream) :
    List TraderState → ExchangeState → ℕ →
    Except String (List TraderState × ExchangeState × ℕ)
  | [], ex, k => .ok ([], ex, k)
  | t :: ts, ex, k => do
    let r ← Random.call f k t ex
    let r2 ← agentsAct f ts r.2.1 r.2.2
    return (r.1 :: r2.1, r2.2.1, r2.2.2)

/-- Transcription of the body of the per-iteration loop of
`Simulator.simulate` (simulator.py lines 39-70): seed the generator from
config.json, apply the events, capture telemetry, reset each exchange's
trade tape, shuffle the traders and run their calls, pay incomes, update
the asset, and increment the stored seed. -/
def Simulator.tick (g : RandomOracle) (it : ℕ) (st : SimState) :
    Except String SimState := do
  let f := g.atSeed st.configSeed
  let ex1 := st.events.foldl (fun ex e => MarketPriceShock.call e it ex) st.exchange
  let row ← captureRow ex1 st.asset st.traders
  let ex2 := { ex1 with lastTrades := [] }
  let sh := shuffleL f st.traders 0
  let r ← agentsAct f sh.1 ex2 sh.2
  let payed := r.1.map (fun t => SingleTrader.income st.asset r.2.1.riskFreeRate t)
  let d := drawFactor f r.2.2
  return { configSeed := st.configSeed + 1
           exchange := r.2.1
           asset := Stock.update d.1 st.asset
           traders := payed
           events := st.events
           rows := st.rows ++ [row] }

/-- Phase 1: apply the scenario events due at this iteration. -/
def phaseEvents (it : ℕ) (st : SimState) : SimState :=
  { st with exchange :=
      st.events.foldl (fun ex e => MarketPriceShock.call e it ex) st.exchange }

/-- Phase 2: snapshot the current (post-event, pre-action) state into
telemetry. -/
def phaseCapture (st : SimState) : Except String SimState := do
  let row ← captureRow st.exchange st.asset st.traders
  return { st with rows := st.rows ++ [row] }

/-- Phase 3: clear the market's last-tick trade tape. -/
def phaseClear (st : SimState) : SimState :=
  { st with exchange := { st.exchange with lastTrades := [] } }

/-- Phase 4: shuffle the activation order and run every trader's call. -/
def phaseAgents (f : DrawStream) (st : SimState) (k : ℕ) :
    Except String (SimState × ℕ) := do
  let sh := shuffleL f st.traders k
  let r ← agentsAct f sh.1 st.exchange sh.2
  return ({ st with traders := r.1, exchange := r.2.1 }, r.2.2)

/-- Phase 5: pay every trader's dividend and interest income. -/
def phaseIncome (st : SimState) : SimState :=
  { st with traders :=
      st.traders.map (fun t => SingleTrader.income st.asset st.exchange.riskFreeRate t) }

/-- Phase 6: advance the asset's dividend. -/
def phaseAssets (f : DrawStream) (st : SimState) (k : ℕ) : SimState × ℕ :=
  let d := drawFactor f k
  ({ st with asset := Stock.update d.1 st.asset }, d.2)

/-- The six phases composed in the claimed order, with the seed fixed once
at the start of the tick and incremented at its end. -/
def Simulator.phasePipeline (g : RandomOracle) (it : ℕ) (st : SimState) :
    Except String SimState := do
  let f := g.atSeed st.configSeed
  let s2 ← phaseCapture (phaseEvents it st)
  let r4 ← phaseAgents f (phaseClear s2) 0
  let r6 := phaseAssets f (phaseIncome r4.1) r4.2
  return { r6.1 with configSeed := st.configSeed + 1 }

/-- Iteration loop of `Simulator.simulate`: a fixed iteration count, no
early termination. -/
def Simulator.simulateFrom (g : RandomOracle) : ℕ → ℕ → SimState →
    Except String SimState
  | _, 0, st => .ok st
  | it, n + 1, st => do
    Simulator.simulateFrom g (it + 1) n (← Simulator.tick g it st)

/-- Entry point `simulate(n_iter)`. -/
def Simulator.simulate (g : RandomOracle) (n : ℕ) (st : SimState) :
    Except String SimState :=
  Simulator.simulateFrom g 0 n st


/-- Book whose bid side is empty while the ask side is populated. -/
def oneSidedBook : ExchangeState :=
  { bid := []
    ask := [⟨101, 3, Side.ask⟩]
    lastTrades := []
    riskFreeRate := 0
    transactionCost := 0 }

/-- Stream of all-zero draws. -/
def zeroStream : DrawStream :=
  ⟨fun _ => 0, fun _ => 0, fun _ => 0, fun _ => 0⟩

/-- Trader holding no orders. -/
def idleTrader : TraderState := { cash := 1000, assets := 0, orders := [] }

/-- C6: on an empty-sided book, `price()` and `spread()` do signal a
distinct condition (an exception) instead of returning a value, but the
callers do not handle it: `Random.call` guards with `if spread is None`
which can never hold (spread() raises instead of returning None), so the
exception propagates out of the agent's call, and the telemetry capture
queries `price()` unguarded, so it propagates there too; the run aborts
rather than skipping the tick. -/
theorem c6_empty_side_aborts :
    ExchangeAgent.spread oneSidedBook = .error "There no either bid | ask orders" ∧
    ExchangeAgent.price oneSidedBook = .error "There no either bid | ask orders" ∧
    Random.call zeroStream 0 idleTrader oneSidedBook
      = .error "There no either bid | ask orders" ∧
    captureRow oneSidedBook ⟨1, [1]⟩ [idleTrader]
      = .error "There no either bid | ask orders" :=
  ⟨rfl, rfl, rfl, rfl⟩

/-- State of a `MarketMaker1D` (traders.py lines 684-706): soft limit,
panic flag and the trader base fields. -/
structure MMState where
  cash : ℚ
  assets : ℤ
  orders : List Order
  softlimit : ℤ
  panic : Bool
deriving DecidableEq, Repr

/-- Action submitted to the market by a market maker. -/
inductive MMAction where
  | limitO (o : Order)
  | marketO (o : Order)
deriving DecidableEq, Repr

/-- Cancellation of all resting orders, as the loop over `self.orders` at
the top of `MarketMaker1D.call`. -/
def cancelAllMM : List Order → ExchangeState → Except String ExchangeState
  | [], s => .ok s
  | o :: os, s => do cancelAllMM os (← ExchangeAgent.cancel_order o s)

/-- Transcription of `MarketMaker1D.call` (traders.py lines 707-729),
returning the updated trader, the updated exchange and the list of actions
submitted.  The panic branch is entered only when both computed volumes are
zero (`not (bid_volume or ask_volume)` on floats), and inside it the
conditionals `if ask_volume is None` and `if bid_volume is None` never hold
(the volumes are floats, never None), so no market order is submitted
there. -/
def MarketMaker1D.call (m : MMState) (s : ExchangeState) :
    Except String (MMState × ExchangeState × List MMAction) := do
  let s1 ← cancelAllMM m.orders s
  let m1 := { m with orders := ([] : List Order) }
  let spr ← ExchangeAgent.spread s1
  let bidVolume : ℚ := max 0 ((m.softlimit : ℚ) - 1 - (m.assets : ℚ))
  let askVolume : ℚ := max 0 ((m.assets : ℚ) - (-(m.softlimit : ℚ)) - 1)
  if bidVolume = 0 ∧ askVolume = 0 then
    return ({ m1 with panic := true }, s1, [])
  else
    let off : ℚ := -((spr.ask - spr.bid) * ((m.assets : ℚ) / (m.softlimit : ℚ)))
    let bidO : Order := ⟨round1 (spr.bid - off - 1/10), pyRoundNat bidVolume, Side.bid⟩
    let askO : Order := ⟨round1 (spr.ask + off + 1/10), pyRoundNat askVolume, Side.ask⟩
    let s2 ← ExchangeAgent.limit_order bidO s1
    let s3 ← ExchangeAgent.limit_order askO s2
    return ({ m1 with panic := false, orders := [bidO, askO] }, s3,
      [MMAction.limitO bidO, MMAction.limitO askO])

/-- C9 does not hold on the code: for every market maker with positive soft
limit L whose inventory exceeds L at the start of its activation, `call()`
leaves the panic flag false and submits only limit orders (its bid volume
is floored to zero and its ask volume is positive, so the panic condition
`not (bid_volume or ask_volume)` is false); and even when the panic branch
is reached, no market order is submitted because the `is None` guards never
hold. -/
theorem c9_no_panic_outside_band (m : MMState) (s : ExchangeState)
    (hL : 0 < m.softlimit) (hout : m.softlimit < m.assets) :
    (∀ r, MarketMaker1D.call m s = .ok r →
      r.1.panic = false ∧
      ∃ o1 o2, r.2.2 = [MMAction.limitO o1, MMAction.limitO o2]) ∧
    (∀ (m2 : MMState) (s2 : ExchangeState) r2,
      MarketMaker1D.call m2 s2 = .ok r2 → r2.1.panic = true → r2.2.2 = []) := by
  constructor
  · intro r hr
    have hask : ¬ ((max 0 ((m.softlimit : ℚ) - 1 - (m.assets : ℚ)) = 0) ∧
        (max 0 ((m.assets : ℚ) - (-(m.softlimit : ℚ)) - 1) = 0)) := by
      intro hco
      have h1 : (0:ℚ) < (m.assets : ℚ) - (-(m.softlimit : ℚ)) - 1 := by
        have hL1 : (1:ℤ) ≤ m.softlimit := hL
        have hA : (m.softlimit : ℚ) < (m.assets : ℚ) := by
          exact_mod_cast hout
        have hLQ : (1:ℚ) ≤ (m.softlimit : ℚ) := by exact_mod_cast hL1
        linarith
      have h2 := hco.2
      rw [max_eq_right (le_of_lt h1)] at h2
      exact absurd h2 (ne_of_gt h1)
    simp only [MarketMaker1D.call, Bind.bind, Except.bind] at hr
    split at hr
    · exact Except.noConfusion hr
    · split at hr
      · exact Except.noConfusion hr
      · rw [if_neg hask] at hr
        split at hr
        · exact Except.noConfusion hr
        · split at hr
          · exact Except.noConfusion hr
          · simp only [Pure.pure, Except.pure, Except.ok.injEq] at hr
            subst hr
            exact ⟨rfl, _, _, rfl⟩
  · intro m2 s2 r2 hr2 hpanic
    simp only [MarketMaker1D.call, Bind.bind, Except.bind] at hr2
    split at hr2
    · exact Except.noConfusion hr2
    · split at hr2
      · exact Except.noConfusion hr2
      · split at hr2
        · simp only [Pure.pure, Except.pure, Except.ok.injEq] at hr2
          subst hr2
          rfl
        · split at hr2
          · exact Except.noConfusion hr2
          · split at hr2
            · exact Except.noConfusion hr2
            · simp only [Pure.pure, Except.pure, Except.ok.injEq] at hr2
              subst hr2
              exact absurd hpanic (by simp)

/-- Witness for C9 at a concrete market maker with soft limit 100 and
inventory 150. -/
theorem c9_no_panic_outside_band_witness :
    ((0:ℤ) < (MMState.mk 1000 150 [] 100 false).softlimit ∧
      (MMState.mk 1000 150 [] 100 false).softlimit
        < (MMState.mk 1000 150 [] 100 false).assets) ∧
    ((∀ r, MarketMaker1D.call (MMState.mk 1000 150 [] 100 false) sampleBook = .ok r →
      r.1.panic = false ∧
      ∃ o1 o2, r.2.2 = [MMAction.limitO o1, MMAction.limitO o2]) ∧
    (∀ (m2 : MMState) (s2 : ExchangeState) r2,
      MarketMaker1D.call m2 s2 = .ok r2 → r2.1.panic = true → r2.2.2 = [])) :=
  ⟨⟨by decide, by decide⟩,
    c9_no_panic_outside_band (MMState.mk 1000 150 [] 100 false) sampleBook
      (by decide) (by decide)⟩


/-- Map over an `Except` value expressed through bind, for rewriting into
the monadic normal form. -/
theorem except_map_eq {α β : Type} (f : α → β) (e : Except String α) :
    e.map f = e >>= (fun a => pure (f a)) := by
  cases e <;> rfl

/-- The telemetry row produced by `captureRow` records the trade tape of
the state it snapshots (the tape as it stands before phase 3 clears it). -/
theorem captureRow_trades_pre_clear (ex : ExchangeState) (a : Stock)
    (ts : List TraderState) :
    (captureRow ex a ts).map CaptureRow.trades
      = (captureRow ex a ts).map (fun _ => ex.lastTrades) := by
  simp only [except_map_eq, captureRow, bind_assoc, pure_bind]

/-- The tick equals the composition of the six phase functions in the
claimed order. -/
theorem tick_eq_phasePipeline (g : RandomOracle) (it : ℕ) (st : SimState) :
    Simulator.tick g it st = Simulator.phasePipeline g it st := by
  simp only [Simulator.tick, Simulator.phasePipeline, phaseEvents, phaseCapture,
    phaseClear, phaseAgents, phaseIncome, phaseAssets, bind_assoc, pure_bind]

/-- The seed stored in config.json advances by exactly one per tick
(`increment_seed(1)` at the end of the loop body). -/
theorem tick_configSeed_advances (g : RandomOracle) (it : ℕ) (st : SimState) :
    (Simulator.tick g it st).map SimState.configSeed
      = (Simulator.tick g it st).map (fun _ => st.configSeed + 1) := by
  simp only [except_map_eq, Simulator.tick, bind_assoc, pure_bind]

/-- C7: every tick of the scheduler runs its six phases in the strict order
(1) scenario events due at this iteration, (2) telemetry snapshot,
(3) trade-tape clearing, (4) shuffled agent activation, (5) income payment,
(6) asset dividend advance; the snapshot of a tick is computed from the
post-event, pre-action state, and in particular it records the trade tape
that phase 3 is about to clear. -/
theorem c7_tick_phase_order (g : RandomOracle) (it : ℕ) (st : SimState) :
    Simulator.tick g it st = Simulator.phasePipeline g it st ∧
    (captureRow (phaseEvents it st).exchange (phaseEvents it st).asset
        (phaseEvents it st).traders).map CaptureRow.trades
      = (captureRow (phaseEvents it st).exchange (phaseEvents it st).asset
          (phaseEvents it st).traders).map
            (fun _ => (phaseEvents it st).exchange.lastTrades) ∧
    (Simulator.tick g it st).map SimState.configSeed
      = (Simulator.tick g it st).map (fun _ => st.configSeed + 1) :=
  ⟨tick_eq_phasePipeline g it st,
    captureRow_trades_pre_clear _ _ _,
    tick_configSeed_advances g it st⟩

/-- The draws consumed inside one tick come from the stream of the seed
stored in config.json at the start of that tick: two oracles agreeing at
that seed produce the same tick. -/
theorem tick_oracle_local (g g' : RandomOracle) (it : ℕ) (st : SimState)
    (h : g.atSeed st.configSeed = g'.atSeed st.configSeed) :
    Simulator.tick g it st = Simulator.tick g' it st := by
  simp only [Simulator.tick]
  rw [h]

/-- A successful tick leaves config.json holding the old seed plus one. -/
theorem tick_configSeed_ok (g : RandomOracle) (it : ℕ) (st st2 : SimState)
    (h : Simulator.tick g it st = .ok st2) :
    st2.configSeed = st.configSeed + 1 := by
  have := tick_configSeed_advances g it st
  rw [h] at this
  simpa [Except.map] using this

/-- The whole run depends on the oracle only through the streams of the
seeds actually used: the initial config.json seed and its successors, one
per iteration. -/
theorem simulateFrom_congr (g g' : RandomOracle) :
    ∀ (n it : ℕ) (st : SimState),
      (∀ k, k < n → g.atSeed (st.configSeed + k) = g'.atSeed (st.configSeed + k)) →
      Simulator.simulateFrom g it n st = Simulator.simulateFrom g' it n st := by
  intro n
  induction n with
  | zero => intro it st h; rfl
  | succ n ih =>
    intro it st h
    have h0 : g.atSeed st.configSeed = g'.atSeed st.configSeed := by
      have := h 0 (Nat.succ_pos n)
      simpa using this
    have ht := tick_oracle_local g g' it st h0
    simp only [Simulator.simulateFrom, Bind.bind, Except.bind]
    rw [ht]
    cases hres : Simulator.tick g' it st with
    | error e => rfl
    | ok st2 =>
      apply ih
      intro k hk
      have hseed := tick_configSeed_ok g' it st st2 hres
      have e1 : st2.configSeed + k = st.configSeed + (k + 1) := by
        rw [hseed]; omega
      rw [e1]
      exact h (k + 1) (by omega)

/-- C1: `simulate` is a deterministic function of the stored seed, the
initial state and the iteration count: two runs from equal initial states,
with oracles that agree on the seeds `seed0, …, seed0 + n - 1` actually
consumed (one reseeding per iteration), produce identical outcomes, and in
particular identical telemetry price series. -/
theorem c1_simulate_deterministic (g g' : RandomOracle) (n : ℕ)
    (st st' : SimState) (hst : st = st')
    (hg : ∀ k, k < n →
      g.atSeed (st.configSeed + k) = g'.atSeed (st.configSeed + k)) :
    Simulator.simulate g n st = Simulator.simulate g' n st' ∧
    (Simulator.simulate g n st).map (fun r => r.rows.map CaptureRow.price)
      = (Simulator.simulate g' n st').map (fun r => r.rows.map CaptureRow.price) := by
  subst hst
  have h := simulateFrom_congr g g' n 0 st hg
  exact ⟨h, by rw [Simulator.simulate, Simulator.simulate, h]⟩

/-- Oracle whose streams are all zero. -/
def gZero : RandomOracle :=
  ⟨fun _ _ => 0, fun _ _ => 0, fun _ _ => 0, fun _ _ => 0⟩

/-- Small simulator state used to instantiate the scheduler theorems. -/
def simState0 : SimState :=
  { configSeed := 7
    exchange := sampleBook
    asset := ⟨1, [1]⟩
    traders := []
    events := []
    rows := [] }

/-- Witness for C1 at a concrete oracle, state and iteration count. -/
theorem c1_simulate_deterministic_witness :
    (simState0 = simState0 ∧
      (∀ k, k < 2 →
        gZero.atSeed (simState0.configSeed + k)
          = gZero.atSeed (simState0.configSeed + k))) ∧
    (Simulator.simulate gZero 2 simState0 = Simulator.simulate gZero 2 simState0 ∧
      (Simulator.simulate gZero 2 simState0).map (fun r => r.rows.map CaptureRow.price)
        = (Simulator.simulate gZero 2 simState0).map
            (fun r => r.rows.map CaptureRow.price)) :=
  ⟨⟨rfl, fun _ _ => rfl⟩,
    c1_simulate_deterministic gZero gZero 2 simState0 simState0 rfl (fun _ _ => rfl)⟩

end ABM
